import Mathlib

/-!
Verification of the path-exclusion engine of `demisto_integrator/cli.py`
(classes `IgnoredFiles` and `IgnorePattern`, function `list_files`).

The Python code is shallowly embedded: strings are Lean `String`
(a wrapper around `List Char`, matching Python's sequence-of-code-points
view), every helper from the standard library that the code calls
(`str.strip`, `str.startswith`, `os.path.join`, `os.path.basename`,
`str.replace`, `fnmatch.translate` + `re.match`, ...) is given an
executable Lean definition with the library's documented semantics, and
fallible code paths (the `assert` statements in `IgnorePattern.match`)
return `Option` with `none` standing for a raised exception.  All
definitions are structurally recursive so that concrete runs reduce
inside the kernel (`decide` / `rfl`).
-/

/-! ### Python string primitives -/

/-- Whitespace stripped by Python's `str.strip()` (the ASCII whitespace
characters; `str.strip` also strips some rare Unicode spaces, which no
claim depends on). -/
def isPySpace (c : Char) : Bool :=
  c = ' ' || c = '\t' || c = '\n' || c = '\r' || c = '\x0b' || c = '\x0c'

/-- `line.strip()`: remove leading and trailing whitespace. -/
def pyStrip (s : String) : String :=
  ⟨((s.data.dropWhile isPySpace).reverse.dropWhile isPySpace).reverse⟩

/-- `s.startswith(pre)`. -/
def pyStartsWith (s pre : String) : Bool := pre.data.isPrefixOf s.data

/-- `s.endswith(suf)`. -/
def pyEndsWith (s suf : String) : Bool := suf.data.isSuffixOf s.data

/-- `s[n:]` (slicing by code points, like Lean's `List.drop`). -/
def pyDrop (s : String) (n : Nat) : String := ⟨s.data.drop n⟩

/-- `s[:-n]` for `n ≥ 1`: drop the last `n` code points (empty result when
`len(s) < n`, as in Python). -/
def pyDropRight (s : String) (n : Nat) : String :=
  ⟨s.data.take (s.data.length - n)⟩

/-- Boolean substring containment on code-point lists. -/
def isSubOf (sub : List Char) : List Char → Bool
  | [] => sub.isEmpty
  | c :: t => sub.isPrefixOf (c :: t) || isSubOf sub t

/-- `sub in s` (substring containment). -/
def strContains (s sub : String) : Bool := isSubOf sub.data s.data

/-- `os.path.basename` (POSIX): the code points after the last `/`;
the whole string when it has no `/`. -/
def pyBasename (p : String) : String :=
  ⟨p.data.foldl (fun acc c => if c = '/' then [] else acc ++ [c]) []⟩

/-- `os.path.join(a, b)` (POSIX, two arguments): `b` if it is absolute,
otherwise `a` and `b` glued with exactly one `/`. -/
def pyJoin (a b : String) : String :=
  if b.data.head? = some '/' then b
  else if a = "" || a.data.getLast? = some '/' then a ++ b
  else a ++ "/" ++ b

/-- Split `s` at the first occurrence of `sep`, like `s.partition(sep)`
restricted to the found case: `some (before, after)` when `sep` occurs in
`s`, `none` otherwise. -/
def breakAtSub (sep : List Char) : List Char → Option (List Char × List Char)
  | [] => if sep.isPrefixOf [] then some ([], []) else none
  | c :: r =>
    if sep.isPrefixOf (c :: r) then some ([], (c :: r).drop sep.length)
    else (breakAtSub sep r).map fun p => (c :: p.1, p.2)

/-- Helper for `pyRemoveAll`: Python's left-to-right, non-overlapping
`str.replace(old, '')` on code-point lists.  `fuel` only bounds the
recursion; `l.length + 1` always suffices since the list shrinks at
every step. -/
def removeAllAux : Nat → List Char → List Char → List Char
  | 0, _, l => l
  | _ + 1, _, [] => []
  | fuel + 1, sub, c :: r =>
    match sub with
    | [] => c :: r
    | d :: ds =>
      if (d :: ds).isPrefixOf (c :: r) then removeAllAux fuel (d :: ds) (r.drop ds.length)
      else c :: removeAllAux fuel (d :: ds) r

/-- `s.replace(old, '')`: delete every (left-to-right, non-overlapping)
occurrence of `old` in `s`. -/
def pyRemoveAll (s old : String) : String :=
  ⟨removeAllAux (s.data.length + 1) old.data s.data⟩

/-- The path of a file relative to `root`, as `IgnorePattern.match`
computes it: `full_path[len(self.root) + 1:]`. -/
def relName (root full_path : String) : String :=
  ⟨full_path.data.drop (root.data.length + 1)⟩

/-- `%2s`-format a line number for the rule description. -/
def pad2 (n : Nat) : String :=
  let s := toString n
  if s.data.length < 2 then " " ++ s else s

/-! ### Semantics of the regular expressions the compiler builds

`IgnorePattern.__init__` compiles exactly four shapes of regular
expression, and `IgnorePattern.match` applies them with `re.match`,
which anchors at the *start* of the string only (a match of any prefix
succeeds).  Each shape is recorded symbolically and interpreted by an
executable matcher below:

* `re.compile('.*')`                                   — `matchAll`
* `re.compile('.*/%s' % re.escape(p))`                 — `dotStarSlash p`
* `re.compile('%s(/.*/|/)?%s' % (escape f, escape s))` — `middleStar f s`
* `re.compile(fnmatch.translate(p))`                   — `fnmatchRe p`

Outside `(?s:...)`, `.` does not match a newline; `fnmatch.translate`
wraps its result in `(?s:...)\Z`, so there `.` matches everything and
the match is anchored at both ends. -/

inductive CompiledRegex where
  | matchAll : CompiledRegex
  | dotStarSlash (suffix : String) : CompiledRegex
  | middleStar (first second : String) : CompiledRegex
  | fnmatchRe (glob : String) : CompiledRegex
deriving DecidableEq, Repr

/-- `re.match('.*/' + re.escape(s), name)` as a Boolean: some prefix of
`name` has the form `u ++ "/" ++ s` with `u` free of newlines (`.``*`
cannot cross a newline; the escaped suffix is literal). -/
def scanSlash (s : List Char) : List Char → Bool
  | [] => false
  | c :: r => (c = '/' && s.isPrefixOf r) || (c ≠ '\n' && scanSlash s r)

/-- `re.match(escape f ++ "(/.*/|/)?" ++ escape s, name)` as a Boolean:
a prefix of `name` is `f ++ m ++ s` where `m` is empty, `"/"`, or
`"/" ++ w ++ "/"` with `w` newline-free. -/
def middleMatch (f s name : List Char) : Bool :=
  f.isPrefixOf name &&
    (let r := name.drop f.length
     s.isPrefixOf r ||
       match r with
       | '/' :: r2 => s.isPrefixOf r2 || scanSlash s r2
       | _ => false)

/-! #### `fnmatch.translate` + `re.match` as a direct glob matcher

`fnmatch.translate` turns a shell pattern into `(?s:...)\Z`: a
*full-string* match where `*` matches any sequence, `?` any single
character, `[...]` a character class, and everything else is literal.
The class body is scanned as in `translate`: after `[`, an optional `!`
and an immediately following `]` belong to the body, which then extends
to the next `]`; an unterminated `[` is a literal.  Inside a class,
`x-y` forms a range; per the current CPython `translate`, ranges whose
bounds are reversed are dropped (merging the surrounding chunks), an
emptied class never matches, and an emptied negated class matches any
character. -/

/-- Scan the body of a character class: `some (body, rest)` when a
closing `]` exists (with `translate`'s initial `!` / `]` skips),
`none` for an unterminated class. -/
def scanClassBody (p : List Char) : Option (List Char × List Char) :=
  let pre_rest : List Char × List Char :=
    match p with
    | '!' :: ']' :: r => (['!', ']'], r)
    | '!' :: r => (['!'], r)
    | ']' :: r => ([']'], r)
    | r => ([], r)
  match breakAtSub [']'] pre_rest.2 with
  | none => none
  | some (a, b) => some (pre_rest.1 ++ a, b)

/-- First index `≥ k` of `'-'` in `s`, mirroring `pat.find('-', k, j)`. -/
def findDashOffset : List Char → Option Nat
  | [] => none
  | '-' :: _ => some 0
  | _ :: r => (findDashOffset r).map (· + 1)

/-- The chunk-splitting loop of `translate` on a class body: each found
`-` (searching from index `k`, resuming two places past the range end)
ends a chunk. `fuel` only bounds the recursion; `body.length + 1` always
suffices since `k` grows by at least 3 per step. -/
def chunkLoop : Nat → List Char → Nat → Nat → List (List Char)
  | 0, body, i, _ => [body.drop i]
  | fuel + 1, body, i, k =>
    match (findDashOffset (body.drop k)).map (k + ·) with
    | none => [body.drop i]
    | some k' => ((body.take k').drop i) :: chunkLoop fuel body (k' + 1) (k' + 3)

/-- `chunk = pat[i:j]; if chunk: chunks.append(chunk) else: chunks[-1] += '-'`:
an empty final chunk turns into a literal `-` on the previous one. -/
def fixTail : List (List Char) → List (List Char)
  | [] => []
  | [c] => [c]
  | c :: [[]] => [c ++ ['-']]
  | c :: rest => c :: fixTail rest

/-- `translate`'s removal of reversed ranges, processed right to left:
when the last character of a chunk exceeds the first character of the
next chunk the pair is merged with both range bounds deleted. -/
def mergeChunks : List (List Char) → List (List Char)
  | [] => []
  | [c] => [c]
  | c :: rest =>
    match mergeChunks rest with
    | [] => [c]
    | d :: ds =>
      if (c.getLast?.map Char.val).getD 0 > (d.head?.map Char.val).getD 0
      then (c.dropLast ++ d.drop 1) :: ds
      else c :: d :: ds

/-- Membership in a chunked class: adjacent chunks contribute the range
`last(left)…first(right)`; all other characters are literals. -/
def chunksMember : List Char → List (List Char) → Char → Bool
  | cur, [], c => cur.contains c
  | cur, nxt :: more, c =>
    cur.dropLast.contains c ||
      (match cur.getLast?, nxt.head? with
       | some lo, some hi => decide (lo.val ≤ c.val) && decide (c.val ≤ hi.val)
       | _, _ => false) ||
      chunksMember (nxt.drop 1) more c

/-- Character-class membership with `translate`'s semantics: `!` negates;
with a `-` present the body is chunked, reversed ranges are removed, and
an emptied class matches nothing (anything, when negated). -/
def classMatch (stuff : List Char) (c : Char) : Bool :=
  let neg := stuff.head? = some '!'
  let body := if neg then stuff.drop 1 else stuff
  if stuff.contains '-' then
    let chunks := mergeChunks (fixTail (chunkLoop (body.length + 1) body 0 1))
    if chunks = [[]] then neg
    else
      let m := match chunks with
        | [] => false
        | first :: rest => chunksMember first rest c
      if neg then !m else m
  else
    if body = [] then neg
    else if neg then !(body.contains c) else body.contains c

/-- The glob matcher: full-string matching of `fnmatch.translate pat`
applied with `re.match`.  `fuel` only bounds the recursion;
`p.length + s.length + 1` always suffices because every recursive call
shrinks `p.length + s.length`. -/
def globMatch : Nat → List Char → List Char → Bool
  | 0, _, _ => false
  | _ + 1, [], [] => true
  | _ + 1, [], _ :: _ => false
  | fuel + 1, '*' :: p, s =>
    globMatch fuel p s ||
      (match s with
       | [] => false
       | _ :: s' => globMatch fuel ('*' :: p) s')
  | fuel + 1, '?' :: p, s =>
    (match s with
     | [] => false
     | _ :: s' => globMatch fuel p s')
  | fuel + 1, '[' :: p, s =>
    (match scanClassBody p with
     | none =>
       match s with
       | c :: s' => c = '[' && globMatch fuel p s'
       | [] => false
     | some (stuff, rest) =>
       match s with
       | c :: s' => classMatch stuff c && globMatch fuel rest s'
       | [] => false)
  | fuel + 1, a :: p, s =>
    (match s with
     | c :: s' => a = c && globMatch fuel p s'
     | [] => false)

/-- `bool(re.match(fnmatch.translate(pat), name))`. -/
def fnmatchMatch (pat name : String) : Bool :=
  globMatch (pat.data.length + name.data.length + 1) pat.data name.data

/-- `bool(regex.match(name))` for each of the four compiled shapes. -/
def regexMatch : CompiledRegex → String → Bool
  | .matchAll, _ => true
  | .dotStarSlash suffix, name => scanSlash suffix.data name.data
  | .middleStar f s, name => middleMatch f.data s.data name.data
  | .fnmatchRe g, name => fnmatchMatch g name

/-! ### `IgnorePattern` (the pattern compiler)

A compiled rule.  The fields mirror the attributes set by
`IgnorePattern.__init__`; `regex` holds the symbolic form of the
compiled regular expression. -/

structure IgnorePattern where
  root : String
  pattern : String
  description : String
  invalid : Option String
  applies_to_directories : Bool
  match_basename : Bool
  exact_match : Option String
  regex : Option CompiledRegex
deriving DecidableEq, Repr

/-- `IgnorePattern._has_glob`: the pattern has a shell glob character. -/
def hasGlob (p : String) : Bool := p.data.contains '*' || p.data.contains '?'

/-- The tail of `IgnorePattern.__init__` after the `**` forms: leading-`/`
anchoring, basename detection, and the glob-vs-literal split. -/
def compileRest (base : IgnorePattern) (pattern : String) : IgnorePattern :=
  match breakAtSub "/**/".data pattern.data with
  | some (first, second) =>
    if hasGlob ⟨first ++ second⟩ then { base with invalid := some "Too complex" }
    else { base with regex := some (.middleStar ⟨first⟩ ⟨second⟩) }
  | none =>
    if strContains pattern "**" then { base with invalid := some "Not supported" }
    else
      let ms : Bool × String :=
        if pyStartsWith pattern "/" then (false, pyDrop pattern 1)
        else if !(strContains pattern "/") then (true, pattern)
        else (base.match_basename, pattern)
      let base := { base with match_basename := ms.1 }
      if hasGlob ms.2 then { base with regex := some (.fnmatchRe ms.2) }
      else { base with exact_match := some ms.2 }

/-- `IgnorePattern.__init__(root, pattern, basename, line_number)`.

Embedded as a total function: every regular expression the constructor
compiles is built from escaped text or produced by `fnmatch.translate`,
and the current CPython library compiles all of those successfully, so
the constructor always returns (possibly with `invalid` set) and never
raises. -/
def IgnorePattern.compile (root pattern basename : String) (line_number : Nat) :
    IgnorePattern :=
  let base : IgnorePattern :=
    { root := root, pattern := pattern
      description := basename ++ ":" ++ pad2 line_number ++ ":" ++ pattern
      invalid := none, applies_to_directories := false, match_basename := false
      exact_match := none, regex := none }
  let d0 := pyEndsWith pattern "/" && !(pyEndsWith pattern "*/")
  let p0 := if d0 then pyDropRight pattern 1 else pattern
  let base := { base with applies_to_directories := d0 }
  if pyStartsWith p0 "**/" then
    let p := pyDrop p0 3
    if hasGlob p then { base with invalid := some "Too complex" }
    else if p = "" then { base with match_basename := true, regex := some .matchAll }
    else if strContains p "/" then { base with regex := some (.dotStarSlash p) }
    else { base with match_basename := true, exact_match := some p }
  else if pyEndsWith p0 "/**" then
    let p := pyDropRight p0 3
    if hasGlob p then { base with invalid := some "Too complex" }
    else
      let base := { base with applies_to_directories := true }
      if p = "" then { base with match_basename := true, regex := some .matchAll }
      else compileRest base p
  else compileRest base p0

/-- `IgnorePattern.match(full_path, is_dir)`.

`none` models a raised exception: the method starts with
`assert not self.invalid` and, when neither branch fires, ends with
`assert self.regex`.  Note the Python truthiness test
`if self.exact_match:`: an *empty* stored literal falls through to the
regex branch.  `is_dir` is the resolved directory-ness of `full_path`
(every caller inside the repository passes the hint explicitly; when it
is omitted the code stats the filesystem, which this pure embedding
takes as an input). -/
def IgnorePattern.matchOpt (r : IgnorePattern) (full_path : String) (is_dir : Bool) :
    Option Bool :=
  if r.invalid ≠ none then none
  else if r.applies_to_directories && !is_dir then some false
  else
    let name := if r.match_basename then pyBasename full_path
                else relName r.root full_path
    match r.exact_match with
    | some e =>
      if e = "" then
        match r.regex with
        | some rx => some (regexMatch rx name)
        | none => none
      else some (name == e)
    | none =>
      match r.regex with
      | some rx => some (regexMatch rx name)
      | none => none

/-! ### `IgnoredFiles` (the rule collection) -/

/-- An entry of `IgnoredFiles.invalid`: the Python list mixes plain
message strings with rejected `IgnorePattern` objects. -/
inductive Diagnostic where
  | msg (s : String) : Diagnostic
  | pat (p : IgnorePattern) : Diagnostic
deriving DecidableEq, Repr

/-- The rule collection.  `_regexes` is a Python `set` of compiled
patterns; since rules are purely additive exclusions its iteration
order only matters for *which* matching rule is returned, not whether
one is, and the embedding fixes insertion order. -/
structure IgnoredFiles where
  root : String
  invalid : List Diagnostic
  _regexes : List IgnorePattern
  basename : String
deriving DecidableEq, Repr

/-- `IgnoredFiles.add(pattern, line_number)`: compile, then file the
result under `invalid` or `_regexes`. -/
def IgnoredFiles.add (self : IgnoredFiles) (pattern : String) (line_number : Nat) :
    IgnoredFiles :=
  let pat := IgnorePattern.compile self.root pattern self.basename line_number
  if pat.invalid ≠ none then { self with invalid := self.invalid ++ [.pat pat] }
  else { self with _regexes := self._regexes ++ [pat] }

/-- One iteration of the `parse_gitignore` line loop: strip, skip blank
and `#` lines, reject `!` lines with a diagnostic, compile the rest. -/
def IgnoredFiles.parseLine (self : IgnoredFiles) (line_number : Nat) (line : String) :
    IgnoredFiles :=
  let line := pyStrip line
  if line = "" then self
  else if line.data.head? = some '#' then self
  else if line.data.head? = some '!' then
    { self with invalid := self.invalid ++
        [.msg ("Negation pattern line " ++ toString line_number ++ " not supported")] }
  else self.add line line_number

/-- `IgnoredFiles.parse_gitignore(path)`.  The file system is passed in:
`none` models a missing ignore file (`os.path.exists` false), `some
lines` its contents.  Lines are numbered from 1. -/
def IgnoredFiles.parse_gitignore (self : IgnoredFiles) (path : String)
    (file : Option (List String)) : IgnoredFiles :=
  match file with
  | none => { self with invalid := self.invalid ++ [.msg ("No folder " ++ path)] }
  | some lines =>
    (lines.enum).foldl (fun st p => st.parseLine (p.1 + 1) p.2) self

/-- `IgnoredFiles.__init__(path, basename, use_default_ignores)`; `path`
is taken already absolute (`os.path.abspath` is not modelled) and the
ignore file's contents are an input.  The ignore file lives at
`join(dirname(root), basename)`; its exact path only shows up in the
missing-file diagnostic, which no claim inspects, so the embedding
passes the basename as that path. -/
def IgnoredFiles.init (path basename : String) (use_default_ignores : Bool)
    (file : Option (List String)) : IgnoredFiles :=
  let self : IgnoredFiles :=
    { root := path, invalid := [], _regexes := [], basename := basename }
  let self := self.parse_gitignore basename file
  if use_default_ignores then self.add ".git/" 0 else self

/-- The loop of `IgnoredFiles.match`: first rule that matches, `none`
(outer) when some rule's `match` raises first. -/
def matchRules : List IgnorePattern → String → Bool → Option (Option IgnorePattern)
  | [], _, _ => some none
  | r :: rs, path, is_dir =>
    match r.matchOpt path is_dir with
    | none => none
    | some true => some (some r)
    | some false => matchRules rs path is_dir

/-- `IgnoredFiles.match(path, is_dir)`: the rule that ignores `path`, if
any; outer `none` models a raised exception. -/
def IgnoredFiles.matchOpt (self : IgnoredFiles) (path : String) (is_dir : Bool) :
    Option (Option IgnorePattern) :=
  matchRules self._regexes path is_dir

/-- Boolean view of `IgnoredFiles.match`: `path` is ignored (exceptions
count as not ignored, but the claims below always exclude them). -/
def isIgnoredB (self : IgnoredFiles) (path : String) (is_dir : Bool) : Bool :=
  match self.matchOpt path is_dir with
  | some (some _) => true
  | _ => false

/-- The loop of `remove_ignored_folders`: iterate over a *copy* of
`dirs` (`dirs[:]`), calling `dirs.remove(basename)` — which deletes the
first occurrence — for every name matching as a directory. -/
def removeLoop (self : IgnoredFiles) (root : String) :
    List String → List String → Option (List String)
  | [], dirs => some dirs
  | b :: rest, dirs =>
    match self.matchOpt (pyJoin root b) true with
    | none => none
    | some (some _) => removeLoop self root rest (dirs.erase b)
    | some none => removeLoop self root rest dirs

/-- `IgnoredFiles.remove_ignored_folders(root, dirs)`, embedded as a
state transformer: the method reads but never writes `self`, so the
returned object is the received one; the returned list is the mutated
`dirs`.  `none` models an exception escaping from `self.match`. -/
def IgnoredFiles.remove_ignored_folders (self : IgnoredFiles) (root : String)
    (dirs : List String) : Option (IgnoredFiles × List String) :=
  (removeLoop self root dirs dirs).map fun d => (self, d)

/-! ### Directory trees and the walk (`list_files`)

`os.walk(top)` is modelled on finite directory trees: a node carries its
subdirectories (name and subtree, in scan order) and its file names.
`os.walk` yields `(root, dirs, files)` top-down; `list_files` prunes
`dirs` in place via `remove_ignored_folders` and `os.walk` then descends
into exactly the surviving names, in order.  The embedding descends into
the child entries whose name survived pruning (on a real file system
child names are unique, so this is the same selection). -/

inductive FSTree where
  | node (dirs : List (String × FSTree)) (files : List String) : FSTree

/-- The per-directory file loop of `list_files`: skip files matched with
`is_dir=False`, report the rest as `fpath.replace(mypath + '/', '')`.
`none` models an exception escaping from `match`. -/
def keptFiles (ign : IgnoredFiles) (mypath cur : String) :
    List String → Option (List String)
  | [] => some []
  | f :: fs =>
    let fpath := pyJoin cur f
    match ign.matchOpt fpath false with
    | none => none
    | some (some _) => keptFiles ign mypath cur fs
    | some none =>
      (keptFiles ign mypath cur fs).map (pyRemoveAll fpath (mypath ++ "/") :: ·)

mutual
/-- `list_files(mypath)` restricted to the subtree rooted at `cur`:
prune the child directories, filter and report this directory's files,
then recurse into the surviving children in order. -/
def listFilesWalk (ign : IgnoredFiles) (mypath cur : String) :
    FSTree → Option (List String)
  | .node ds fs =>
    match (ign.remove_ignored_folders cur (ds.map Prod.fst)).map Prod.snd with
    | none => none
    | some pruned =>
      match keptFiles ign mypath cur fs with
      | none => none
      | some kept =>
        match walkChildren ign mypath cur pruned ds with
        | none => none
        | some rest => some (kept ++ rest)

/-- Descend into the children whose name survived pruning. -/
def walkChildren (ign : IgnoredFiles) (mypath cur : String) (pruned : List String) :
    List (String × FSTree) → Option (List String)
  | [] => some []
  | (name, sub) :: rest =>
    if pruned.contains name then
      match listFilesWalk ign mypath (pyJoin cur name) sub with
      | none => none
      | some a =>
        match walkChildren ign mypath cur pruned rest with
        | none => none
        | some b => some (a ++ b)
    else walkChildren ign mypath cur pruned rest
end

mutual
/-- A full recursive listing of every file under `cur` (full paths, walk
order), with the list of ancestor directories (full paths, strictly
below the walk root) recorded next to each file. -/
def listAllWithAnc (cur : String) (anc : List String) :
    FSTree → List (String × List String)
  | .node ds fs =>
    fs.map (fun f => (pyJoin cur f, anc)) ++ allChildrenWithAnc cur anc ds

def allChildrenWithAnc (cur : String) (anc : List String) :
    List (String × FSTree) → List (String × List String)
  | [] => []
  | (name, sub) :: rest =>
    listAllWithAnc (pyJoin cur name) (anc ++ [pyJoin cur name]) sub ++
      allChildrenWithAnc cur anc rest
end

/-- A full recursive listing of every file under `cur`: full paths, in
walk order, nothing pruned and nothing filtered. -/
def listAllFiles (cur : String) (t : FSTree) : List String :=
  (listAllWithAnc cur [] t).map Prod.fst

/-- The post-hoc variant from the claim: filter the full recursive
listing by `match` with `is_dir=False`, reporting survivors the same way
`list_files` reports them.  `none` models an exception from `match`. -/
def posthocFilter (ign : IgnoredFiles) (mypath : String) :
    List String → Option (List String)
  | [] => some []
  | fp :: rest =>
    match ign.matchOpt fp false with
    | none => none
    | some (some _) => posthocFilter ign mypath rest
    | some none =>
      (posthocFilter ign mypath rest).map (pyRemoveAll fp (mypath ++ "/") :: ·)

/-- Full listing of `t`, filtered post hoc by `match(·, is_dir=False)`. -/
def posthocListing (ign : IgnoredFiles) (mypath : String) (t : FSTree) :
    Option (List String) :=
  posthocFilter ign mypath (listAllFiles mypath t)

/-! ### Specification-side definitions used by the claims -/

/-- The relative path `rel` contains `"/" ++ suffix` starting at some
position whose preceding characters are all different from a newline
(for newline-free paths: `"/" ++ suffix` occurs as a substring
anywhere).  This is what `re.match('.*/<suffix>')` — anchored at the
start only — actually tests. -/
def hasInteriorSlashSub (rel suffix : String) : Prop :=
  ∃ u v : List Char, rel.data = u ++ '/' :: (suffix.data ++ v) ∧ ∀ c ∈ u, c ≠ '\n'

/-- The corrected post-hoc filter for one entry of the annotated full
listing: a file is reported exactly when it does not itself match with
`is_dir=False` and no ancestor directory matches with `is_dir=True`;
survivors are reported the way `list_files` reports them. -/
def keepEntry (ign : IgnoredFiles) (mypath : String) (e : String × List String) :
    Option String :=
  if !(isIgnoredB ign e.1 false) && e.2.all (fun a => !(isIgnoredB ign a true))
  then some (pyRemoveAll e.1 (mypath ++ "/"))
  else none

mutual
/-- Size measure used only to derive an induction principle for `FSTree`. -/
def FSTree.size : FSTree → Nat
  | .node ds _ => sizeDirs ds + 1

def sizeDirs : List (String × FSTree) → Nat
  | [] => 0
  | (_, t) :: rest => FSTree.size t + sizeDirs rest
end

/-! ### Claim theorems -/

/-- C2 counterexample.  The claim says the rule compiled from
`a/**/b` does not match `a/bx`; it does: `IgnorePattern.match` uses
`re.match`, which is anchored at the start only, and the regular
expression `a(/.*/|/)?b` matches the prefix `a/b` of `a/bx`. -/
theorem C2_a_bx_counterexample :
    (IgnorePattern.compile "r" "a/**/b" ".contentignore" 1).matchOpt "r/a/bx" false
      = some true := by decide

/-- C2 (amended).  The rule compiled from `a/**/b` matches the
relative paths `a/b`, `a/x/b` and `a/x/y/b` and does not match `ax/b`,
as claimed; but, because `re.match` anchors only at the start of the
candidate, it also matches `a/bx` (via its prefix `a/b`). -/
theorem C2_middle_doublestar_matches :
    (IgnorePattern.compile "r" "a/**/b" ".contentignore" 1).invalid = none ∧
    (IgnorePattern.compile "r" "a/**/b" ".contentignore" 1).matchOpt "r/a/b" false = some true ∧
    (IgnorePattern.compile "r" "a/**/b" ".contentignore" 1).matchOpt "r/a/x/b" false = some true ∧
    (IgnorePattern.compile "r" "a/**/b" ".contentignore" 1).matchOpt "r/a/x/y/b" false = some true ∧
    (IgnorePattern.compile "r" "a/**/b" ".contentignore" 1).matchOpt "r/ax/b" false = some false ∧
    (IgnorePattern.compile "r" "a/**/b" ".contentignore" 1).matchOpt "r/a/bx" false = some true := by
  decide

/-- C3 counterexample.  The claim says a rule `**/<suffix>` only
matches paths that end with `/<suffix>`: but `re.compile('.*/<suffix>')`
is applied with `re.match`, which is not anchored at the end, so the
rule compiled from `**/a/b` matches the relative path `x/a/bz`, which
contains `/a/b` in its interior and does not end with it. -/
theorem C3_interior_occurrence_counterexample :
    (IgnorePattern.compile "r" "**/a/b" ".contentignore" 1).matchOpt "r/x/a/bz" false
        = some true ∧
    pyEndsWith (relName "r" "r/x/a/bz") "/a/b" = false := by decide

/-- C4 (code bug, evaluated at the failing input).  The ignore-file
line `/` compiles to a rule that is *not* marked invalid, stores the
empty string as its `exact_match` and no regex; `IgnorePattern.match`
tests `if self.exact_match:`, so the empty literal falls through to
`assert self.regex`, which raises (`none` here).  The rule is admitted
into the active set, and `IgnoredFiles.match` — hence any directory walk
— raises on the first directory query, contradicting both the spec's
"at least one of the two is always set on a valid rule / no exception
crosses the core's boundary" and the code's own assertion. -/
theorem C4_slash_pattern_assert_failure :
    (IgnorePattern.compile "/r" "/" ".contentignore" 1).invalid = none ∧
    (IgnorePattern.compile "/r" "/" ".contentignore" 1).exact_match = some "" ∧
    (IgnorePattern.compile "/r" "/" ".contentignore" 1).regex = none ∧
    (IgnorePattern.compile "/r" "/" ".contentignore" 1).matchOpt "/r/sub" true = none ∧
    (IgnoredFiles.init "/r" ".contentignore" true (some ["/"]))._regexes.length = 2 ∧
    (IgnoredFiles.init "/r" ".contentignore" true (some ["/"])).matchOpt "/r/sub" true
      = none := by decide

/-- C7.  An ignore-file line that (after stripping) begins with `!`
only appends the unsupported-negation diagnostic: it is never given to
the pattern compiler and adds nothing to `_regexes`.  Concretely, for a
file consisting of the line `!foo`, the active set holds only the
built-in `.git/` rule and `foo` is not excluded, whether queried as a
file or as a directory. -/
theorem C7_negation_line_diagnostic_only (self : IgnoredFiles) (ln : Nat) (line : String)
    (h : (pyStrip line).data.head? = some '!') :
    self.parseLine ln line =
      { self with invalid := self.invalid ++
          [.msg ("Negation pattern line " ++ toString ln ++ " not supported")] } ∧
    (IgnoredFiles.init "/r" ".contentignore" true (some ["!foo"]))._regexes.length = 1 ∧
    (IgnoredFiles.init "/r" ".contentignore" true (some ["!foo"])).invalid =
      [.msg "Negation pattern line 1 not supported"] ∧
    (IgnoredFiles.init "/r" ".contentignore" true (some ["!foo"])).matchOpt "/r/foo" false
      = some none ∧
    (IgnoredFiles.init "/r" ".contentignore" true (some ["!foo"])).matchOpt "/r/foo" true
      = some none := by
  refine ⟨?_, by decide, by decide, by decide, by decide⟩
  have hne : pyStrip line ≠ "" := by
    intro he
    rw [he] at h
    simp at h
  have hns : ¬((pyStrip line).data.head? = some '#') := by
    rw [h]
    simp
  simp only [IgnoredFiles.parseLine]
  rw [if_neg hne, if_neg hns, if_pos h]

/-- Witness for C7 at a concrete input: the line `  !foo ` (note the
surrounding whitespace) on a rule set with one prior diagnostic. -/
theorem C7_negation_line_diagnostic_only_witness :
    (pyStrip "  !foo ").data.head? = some '!' ∧
    (IgnoredFiles.init "/r" ".contentignore" false none).parseLine 4 "  !foo " =
      { IgnoredFiles.init "/r" ".contentignore" false none with
          invalid := (IgnoredFiles.init "/r" ".contentignore" false none).invalid ++
            [.msg ("Negation pattern line " ++ toString 4 ++ " not supported")] } :=
  ⟨by decide,
   (C7_negation_line_diagnostic_only (IgnoredFiles.init "/r" ".contentignore" false none)
      4 "  !foo " (by decide)).1⟩

/-! ### Helper lemmas -/

theorem string_eq_of_data {s t : String} (h : s.data = t.data) : s = t := by
  cases s; cases t; simp_all

theorem singleton_isPrefixOf_append (c : Char) (l m : List Char) (hl : l ≠ []) :
    [c].isPrefixOf (l ++ m) = [c].isPrefixOf l := by
  cases l with
  | nil => exact absurd rfl hl
  | cons y ys => simp [List.isPrefixOf]

theorem isSuffixOf_append_self (l a : List Char) : l.isSuffixOf (a ++ l) = true := by
  show l.reverse.isPrefixOf (a ++ l).reverse = true
  rw [List.reverse_append]
  exact List.isPrefixOf_iff_prefix.mpr ⟨_, rfl⟩

theorem isPrefixOf_append_self (l t : List Char) : l.isPrefixOf (l ++ t) = true :=
  List.isPrefixOf_iff_prefix.mpr ⟨_, rfl⟩

theorem singleton_isSuffixOf_append (c : Char) (a b : List Char) (hb : b ≠ []) :
    [c].isSuffixOf (a ++ b) = [c].isSuffixOf b := by
  show [c].reverse.isPrefixOf (a ++ b).reverse = [c].reverse.isPrefixOf b.reverse
  rw [List.reverse_append]
  have hrc : [c].reverse = [c] := rfl
  rw [hrc]
  exact singleton_isPrefixOf_append c b.reverse a.reverse (by simpa using hb)

theorem isSubOf_of_mem (c : Char) (l : List Char) (h : c ∈ l) : isSubOf [c] l = true := by
  induction l with
  | nil => cases h
  | cons x xs ih =>
    rcases List.mem_cons.mp h with h | h
    · subst h; simp [isSubOf, List.isPrefixOf]
    · simp [isSubOf, ih h]

theorem breakAtSub_none_of_head_notin (c : Char) (ds : List Char) (l : List Char)
    (h : c ∉ l) : breakAtSub (c :: ds) l = none := by
  induction l with
  | nil => simp [breakAtSub, List.isPrefixOf]
  | cons x xs ih =>
    have hcx : ¬(c = x) := fun he => h (he ▸ List.mem_cons_self x xs)
    have h1 : (c :: ds).isPrefixOf (x :: xs) = false := by
      simp [List.isPrefixOf]
      intro he
      exact absurd he hcx
    have h2 : c ∉ xs := fun hm => h (List.mem_cons_of_mem x hm)
    simp [breakAtSub, h1, ih h2]

theorem isSubOf_false_of_head_notin (c : Char) (ds : List Char) (l : List Char)
    (h : c ∉ l) : isSubOf (c :: ds) l = false := by
  induction l with
  | nil => simp [isSubOf]
  | cons x xs ih =>
    have hcx : ¬(c = x) := fun he => h (he ▸ List.mem_cons_self x xs)
    have h1 : (c :: ds).isPrefixOf (x :: xs) = false := by
      simp [List.isPrefixOf]
      intro he
      exact absurd he hcx
    have h2 : c ∉ xs := fun hm => h (List.mem_cons_of_mem x hm)
    simp [isSubOf, h1, ih h2]

/-- Every branch of the tail of the compiler leaves `applies_to_directories`
untouched. -/
theorem compileRest_applies (base : IgnorePattern) (p : String) :
    (compileRest base p).applies_to_directories = base.applies_to_directories := by
  unfold compileRest
  repeat' split
  all_goals dsimp only
  repeat' split
  all_goals rfl

/-- A pattern with a trailing `/` (and no trailing `*/`) always compiles to a
directory-only rule: step 1 sets the flag and no later step resets it. -/
theorem compile_applies_of_d0 (root p bn : String) (k : Nat)
    (h1 : pyEndsWith p "/" = true) (h2 : pyEndsWith p "*/" = false) :
    (IgnorePattern.compile root p bn k).applies_to_directories = true := by
  unfold IgnorePattern.compile
  rw [h1, h2]
  simp only [Bool.not_false, Bool.and_self, if_true]
  repeat' split
  all_goals first
    | rfl
    | rw [compileRest_applies]

/-- A directory-only rule can never answer `true` for a file: either the
`is_dir` gate returns `False` first, or (for an invalid rule) the leading
assert raises. -/
theorem matchOpt_ne_true_of_dir_only (r : IgnorePattern) (fp : String)
    (h : r.applies_to_directories = true) : r.matchOpt fp false ≠ some true := by
  unfold IgnorePattern.matchOpt
  by_cases hi : r.invalid = none
  · simp [hi, h]
  · simp [hi]

theorem matchOpt_false_of_dir_only (r : IgnorePattern) (fp : String)
    (h : r.applies_to_directories = true) (hi : r.invalid = none) :
    r.matchOpt fp false = some false := by
  simp [IgnorePattern.matchOpt, hi, h]

/-- The tail of the compiler returns a rule carrying a literal or a regex
whenever it does not mark the rule invalid. -/
theorem compileRest_matcher (base : IgnorePattern) (p : String) :
    (compileRest base p).invalid = none →
      (compileRest base p).exact_match ≠ none ∨ (compileRest base p).regex ≠ none := by
  unfold compileRest
  repeat' split
  all_goals dsimp only
  repeat' split
  all_goals intro h
  all_goals simp_all

/-- Every valid compiled rule carries a literal or a regex (as data; the
empty-literal pitfall of C4 is a matter of Python truthiness, not of the
fields being unset). -/
theorem compile_matcher (root p bn : String) (k : Nat) :
    (IgnorePattern.compile root p bn k).invalid = none →
      (IgnorePattern.compile root p bn k).exact_match ≠ none ∨
        (IgnorePattern.compile root p bn k).regex ≠ none := by
  unfold IgnorePattern.compile
  rcases Bool.eq_false_or_eq_true (pyEndsWith p "/" && !pyEndsWith p "*/") with hd | hd <;>
    simp only [hd, reduceIte] <;>
    (repeat' split) <;>
    (try dsimp only) <;>
    intro h <;>
    first
      | exact compileRest_matcher _ _ h
      | simp_all

theorem notMem_star_of_hasGlob {name : String} (h : hasGlob name = false) :
    '*' ∉ name.data := by
  simp [hasGlob] at h
  exact h.1

theorem notMem_slash_of_strContains {name : String} (h : strContains name "/" = false) :
    '/' ∉ name.data := by
  intro hm
  rw [show strContains name "/" = isSubOf ['/'] name.data from rfl,
    isSubOf_of_mem '/' name.data hm] at h
  cases h

/-- Full evaluation of the compiler on a pattern `<name>/**` where `<name>`
is a nonempty, wildcard-free, slash-free segment: a valid, directory-only,
basename-literal rule. -/
theorem compile_name_doublestar (root name bn : String) (k : Nat)
    (h1 : hasGlob name = false) (h2 : strContains name "/" = false) (h3 : name ≠ "") :
    IgnorePattern.compile root (name ++ "/**") bn k =
      { root := root, pattern := name ++ "/**",
        description := bn ++ ":" ++ pad2 k ++ ":" ++ (name ++ "/**"),
        invalid := none, applies_to_directories := true, match_basename := true,
        exact_match := some name, regex := none } := by
  have hstar : '*' ∉ name.data := notMem_star_of_hasGlob h1
  have hslash : '/' ∉ name.data := notMem_slash_of_strContains h2
  have hdata : (name ++ "/**").data = name.data ++ ['/', '*', '*'] := by
    rw [String.data_append]
  have hnd : name.data ≠ [] := by
    intro he; exact h3 (string_eq_of_data (by simp [he]))
  have hE1 : pyEndsWith (name ++ "/**") "/" = false := by
    unfold pyEndsWith
    rw [hdata, singleton_isSuffixOf_append '/' name.data ['/', '*', '*'] (by simp)]
    decide
  have hS1 : pyStartsWith (name ++ "/**") "**/" = false := by
    unfold pyStartsWith
    rw [hdata]
    cases hc : name.data with
    | nil => exact absurd hc hnd
    | cons c cs =>
      have hcx : ('*' : Char) ≠ c := by
        intro he
        exact hstar (by rw [hc, ← he]; exact List.mem_cons_self _ _)
      have hcb : (('*' : Char) == c) = false := beq_eq_false_iff_ne.mpr hcx
      show List.isPrefixOf ['*', '*', '/'] ((c :: cs) ++ ['/', '*', '*']) = false
      simp [List.isPrefixOf, hcb]
  have hE2 : pyEndsWith (name ++ "/**") "/**" = true := by
    unfold pyEndsWith
    rw [hdata]
    exact isSuffixOf_append_self ['/', '*', '*'] name.data
  have hD : pyDropRight (name ++ "/**") 3 = name := by
    apply string_eq_of_data
    unfold pyDropRight
    rw [hdata]
    simp
  have hB : breakAtSub "/**/".data name.data = none := by
    rw [show ("/**/" : String).data = '/' :: "**/".data from rfl]
    exact breakAtSub_none_of_head_notin '/' _ name.data hslash
  have hSS : strContains name "**" = false := by
    unfold strContains
    rw [show ("**" : String).data = '*' :: ['*'] from rfl]
    exact isSubOf_false_of_head_notin '*' _ name.data hstar
  have hSP : pyStartsWith name "/" = false := by
    unfold pyStartsWith
    rw [show ("/" : String).data = ['/'] from rfl]
    cases hc : name.data with
    | nil => rfl
    | cons c cs =>
      have hcx : ('/' : Char) ≠ c := by
        intro he
        exact hslash (by rw [hc, ← he]; exact List.mem_cons_self _ _)
      have hcb : (('/' : Char) == c) = false := beq_eq_false_iff_ne.mpr hcx
      simp [List.isPrefixOf, hcb]
  unfold IgnorePattern.compile
  rw [hE1]
  simp only [Bool.false_and, Bool.false_eq_true, if_false]
  rw [hS1]
  simp only [Bool.false_eq_true, if_false]
  rw [hE2]
  simp only [eq_self_iff_true, if_true]
  rw [hD, h1]
  simp only [Bool.false_eq_true, if_false, if_neg h3]
  unfold compileRest
  rw [hB]
  simp only []
  rw [hSS]
  simp only [Bool.false_eq_true, if_false]
  rw [hSP]
  simp only [Bool.false_eq_true, if_false, h2, Bool.not_false, eq_self_iff_true, if_true]
  rw [h1]
  simp only [Bool.false_eq_true, if_false]

/-- Semantics of `re.match('.*/' ++ s)`: a decomposition with a newline-free
part before some `/ ++ s` occurrence. -/
theorem scanSlash_iff (s l : List Char) :
    scanSlash s l = true ↔ ∃ u v, l = u ++ '/' :: (s ++ v) ∧ ∀ c ∈ u, c ≠ '\n' := by
  induction l with
  | nil =>
    simp only [scanSlash, Bool.false_eq_true, false_iff]
    rintro ⟨u, v, h, -⟩
    cases u <;> simp at h
  | cons c r ih =>
    simp only [scanSlash, Bool.or_eq_true, Bool.and_eq_true, decide_eq_true_eq]
    constructor
    · rintro (⟨hc, hp⟩ | ⟨hn, hs⟩)
      · rcases List.isPrefixOf_iff_prefix.mp hp with ⟨v, hv⟩
        exact ⟨[], v, by simp [hc, ← hv], by simp⟩
      · rcases ih.mp hs with ⟨u, v, hl, hu⟩
        refine ⟨c :: u, v, by simp [hl], ?_⟩
        intro x hx
        rcases List.mem_cons.mp hx with h | h
        · subst h; exact hn
        · exact hu x h
    · rintro ⟨u, v, hl, hu⟩
      cases u with
      | nil =>
        simp only [List.nil_append, List.cons.injEq] at hl
        exact Or.inl ⟨hl.1, List.isPrefixOf_iff_prefix.mpr ⟨v, hl.2.symm⟩⟩
      | cons a u' =>
        simp only [List.cons_append, List.cons.injEq] at hl
        refine Or.inr ⟨?_, ih.mpr ⟨u', v, hl.2, fun x hx => hu x (List.mem_cons_of_mem a hx)⟩⟩
        rw [hl.1]
        exact hu a (List.mem_cons_self a u')

/-- Full evaluation of the compiler on `**/<suffix>` when the suffix contains
a `/`, no wildcard and no trailing `/`: an anchored `.*/<suffix>` regex rule. -/
theorem compile_leading_doublestar_slash (root suffix bn : String) (k : Nat)
    (hs : strContains suffix "/" = true) (hg : hasGlob suffix = false)
    (he : pyEndsWith suffix "/" = false) :
    IgnorePattern.compile root ("**/" ++ suffix) bn k =
      { root := root, pattern := "**/" ++ suffix,
        description := bn ++ ":" ++ pad2 k ++ ":" ++ ("**/" ++ suffix),
        invalid := none, applies_to_directories := false, match_basename := false,
        exact_match := none, regex := some (.dotStarSlash suffix) } := by
  have hnd : suffix.data ≠ [] := by
    intro hnil
    rw [show strContains suffix "/" = isSubOf ['/'] suffix.data from rfl, hnil] at hs
    cases hs
  have hne : suffix ≠ "" := by
    intro hq
    exact hnd (by rw [hq])
  have hE1 : pyEndsWith ("**/" ++ suffix) "/" = false := by
    unfold pyEndsWith
    rw [show ("**/" ++ suffix).data = "**/".data ++ suffix.data from String.data_append _ _,
      singleton_isSuffixOf_append '/' _ _ hnd]
    exact he
  have hS1 : pyStartsWith ("**/" ++ suffix) "**/" = true := by
    unfold pyStartsWith
    rw [String.data_append]
    exact isPrefixOf_append_self _ _
  have hD : pyDrop ("**/" ++ suffix) 3 = suffix := by
    apply string_eq_of_data
    unfold pyDrop
    rw [show ("**/" ++ suffix).data = '*' :: '*' :: '/' :: suffix.data from
      String.data_append _ _]
    rfl
  unfold IgnorePattern.compile
  rw [hE1]
  simp only [Bool.false_and, Bool.false_eq_true, if_false]
  rw [hS1]
  simp only [eq_self_iff_true, if_true]
  rw [hD, hg]
  simp only [Bool.false_eq_true, if_false]
  rw [if_neg hne, if_pos hs]

theorem dropWhile_append_of_all (p : Char → Bool) (w l : List Char)
    (h : ∀ c ∈ w, p c = true) : (w ++ l).dropWhile p = l.dropWhile p := by
  induction w with
  | nil => rfl
  | cons a w' ih =>
    have ha : p a = true := h a (List.mem_cons_self _ _)
    simp only [List.cons_append, List.dropWhile_cons, ha, if_true]
    exact ih (fun c hc => h c (List.mem_cons_of_mem a hc))

theorem dropWhile_of_head_neg (p : Char → Bool) (l : List Char)
    (h : ∀ c, l.head? = some c → p c = false) : l.dropWhile p = l := by
  cases l with
  | nil => rfl
  | cons c t => simp [List.dropWhile_cons, h c rfl]

/-- `strip` of whitespace ++ core ++ whitespace is `core` when `core` starts
and ends with non-whitespace. -/
theorem stripData_concat (w1 w2 cd : List Char)
    (h1 : ∀ c ∈ w1, isPySpace c = true) (h2 : ∀ c ∈ w2, isPySpace c = true)
    (hh : ∀ c, cd.head? = some c → isPySpace c = false)
    (hl : ∀ c, cd.getLast? = some c → isPySpace c = false) :
    (((w1 ++ (cd ++ w2)).dropWhile isPySpace).reverse.dropWhile isPySpace).reverse = cd := by
  rw [dropWhile_append_of_all _ w1 _ h1]
  cases cd with
  | nil =>
    simp only [List.nil_append]
    have hw2 : w2.dropWhile isPySpace = [] :=
      List.dropWhile_eq_nil_iff.mpr (fun c hc => by simp [h2 c hc])
    rw [hw2]
    rfl
  | cons c t =>
    rw [List.cons_append]
    rw [dropWhile_of_head_neg _ (c :: (t ++ w2)) (fun x hx => hh x hx)]
    rw [show (c :: (t ++ w2) : List Char).reverse = w2.reverse ++ (c :: t).reverse from by
      rw [show (c :: (t ++ w2) : List Char) = (c :: t) ++ w2 from rfl]
      exact List.reverse_append _ _]
    rw [dropWhile_append_of_all _ w2.reverse _ (fun x hx => h2 x (List.mem_reverse.mp hx))]
    rw [dropWhile_of_head_neg _ _ (fun x hx => hl x (by rwa [List.head?_reverse] at hx))]
    exact List.reverse_reverse _

/-- The `remove_ignored_folders` loop as a left fold of first-occurrence
erasures over a copy of the list. -/
theorem removeLoop_foldl (self : IgnoredFiles) (root : String) :
    ∀ (l cur : List String),
      (∀ b ∈ l, self.matchOpt (pyJoin root b) true ≠ none) →
      removeLoop self root l cur = some (l.foldl
        (fun acc b => if isIgnoredB self (pyJoin root b) true then acc.erase b else acc)
        cur) := by
  intro l
  induction l with
  | nil => intro cur _; rfl
  | cons b rest ih =>
    intro cur hM
    have hb := hM b (List.mem_cons_self _ _)
    have hrest : ∀ x ∈ rest, self.matchOpt (pyJoin root x) true ≠ none :=
      fun x hx => hM x (List.mem_cons_of_mem b hx)
    unfold removeLoop
    cases hm : self.matchOpt (pyJoin root b) true with
    | none => exact absurd hm hb
    | some o =>
      cases o with
      | none =>
        have hP : isIgnoredB self (pyJoin root b) true = false := by
          simp [isIgnoredB, hm]
        rw [ih cur hrest]
        simp [hP]
      | some r =>
        have hP : isIgnoredB self (pyJoin root b) true = true := by
          simp [isIgnoredB, hm]
        rw [ih (cur.erase b) hrest]
        simp [hP]

theorem foldl_erase_cons (P : String → Bool) :
    ∀ (l : List String) (cur : List String) (b : String), P b = false →
      l.foldl (fun acc x => if P x then acc.erase x else acc) (b :: cur) =
        b :: l.foldl (fun acc x => if P x then acc.erase x else acc) cur := by
  intro l
  induction l with
  | nil => intro cur b _; rfl
  | cons x rest ih =>
    intro cur b hb
    simp only [List.foldl_cons]
    by_cases hx : P x = true
    · rw [if_pos hx, if_pos hx]
      have hbx : (b == x) = false := by
        apply beq_eq_false_iff_ne.mpr
        intro he
        rw [he] at hb
        rw [hb] at hx
        simp at hx
      rw [List.erase_cons, hbx]
      simp only [Bool.false_eq_true, if_false]
      exact ih (cur.erase x) b hb
    · rw [if_neg hx, if_neg hx]
      exact ih cur b hb

/-- Erasing, from the list itself, each element that satisfies `P` — in
iteration order of a copy — is filtering by `!P`. -/
theorem foldl_erase_filter (P : String → Bool) :
    ∀ l : List String,
      l.foldl (fun acc x => if P x then acc.erase x else acc) l
        = l.filter (fun x => !P x) := by
  intro l
  induction l with
  | nil => rfl
  | cons b rest ih =>
    simp only [List.foldl_cons, List.filter_cons]
    by_cases hb : P b = true
    · rw [if_pos hb, List.erase_cons_head]
      rw [show (!P b) = false from by rw [hb]; rfl]
      simp only [Bool.false_eq_true, if_false]
      exact ih
    · have hb' : P b = false := by simpa using hb
      rw [if_neg hb]
      rw [foldl_erase_cons P rest rest b hb']
      rw [show (!P b) = true from by rw [hb']; rfl]
      simp only [if_true]
      rw [ih]

/-- `remove_ignored_folders` keeps exactly the names not matching as
directories, in order, and returns the rule object unchanged. -/
theorem remove_filter (self : IgnoredFiles) (root : String) (dirs : List String)
    (hM : ∀ b ∈ dirs, self.matchOpt (pyJoin root b) true ≠ none) :
    self.remove_ignored_folders root dirs =
      some (self, dirs.filter (fun b => !(isIgnoredB self (pyJoin root b) true))) := by
  unfold IgnoredFiles.remove_ignored_folders
  rw [removeLoop_foldl self root dirs dirs hM]
  rw [foldl_erase_filter (fun b => isIgnoredB self (pyJoin root b) true) dirs]
  rfl

theorem sizeDirs_mem (ds : List (String × FSTree)) (p : String × FSTree) (hp : p ∈ ds) :
    p.2.size ≤ sizeDirs ds := by
  induction ds with
  | nil => cases hp
  | cons q rest ih =>
    obtain ⟨qn, qt⟩ := q
    rcases List.mem_cons.mp hp with h | h
    · subst h
      simp [sizeDirs]
    · have := ih h
      simp only [sizeDirs]
      omega

/-- Induction over directory trees: to prove a property of every tree it is
enough to prove it at a node assuming it for every child subtree. -/
theorem FSTree.inductionOn {motive : FSTree → Prop}
    (h : ∀ ds fs, (∀ p ∈ ds, motive p.2) → motive (FSTree.node ds fs)) :
    ∀ t, motive t := by
  suffices H : ∀ n t, FSTree.size t ≤ n → motive t by
    exact fun t => H t.size t le_rfl
  intro n
  induction n with
  | zero =>
    intro t ht
    cases t with
    | node ds fs =>
      rw [show FSTree.size (FSTree.node ds fs) = sizeDirs ds + 1 from rfl] at ht
      omega
  | succ n ih =>
    intro t ht
    cases t with
    | node ds fs =>
      apply h
      intro p hp
      apply ih
      have h1 := sizeDirs_mem ds p hp
      rw [show FSTree.size (FSTree.node ds fs) = sizeDirs ds + 1 from rfl] at ht
      omega

/-- The per-directory file loop of `list_files` is a `filterMap`. -/
theorem keptFiles_eq (ign : IgnoredFiles) (mypath cur : String) :
    ∀ fs : List String, (∀ f ∈ fs, ign.matchOpt (pyJoin cur f) false ≠ none) →
      keptFiles ign mypath cur fs = some (fs.filterMap fun f =>
        if isIgnoredB ign (pyJoin cur f) false then none
        else some (pyRemoveAll (pyJoin cur f) (mypath ++ "/"))) := by
  intro fs
  induction fs with
  | nil => intro _; rfl
  | cons f rest ih =>
    intro hM
    have hf := hM f (List.mem_cons_self _ _)
    have hrest := fun x hx => hM x (List.mem_cons_of_mem f hx)
    unfold keptFiles
    dsimp only
    cases hm : ign.matchOpt (pyJoin cur f) false with
    | none => exact absurd hm hf
    | some o =>
      cases o with
      | some r =>
        have hP : isIgnoredB ign (pyJoin cur f) false = true := by simp [isIgnoredB, hm]
        rw [ih hrest]
        simp [List.filterMap_cons, hP]
      | none =>
        have hP : isIgnoredB ign (pyJoin cur f) false = false := by simp [isIgnoredB, hm]
        rw [ih hrest]
        simp [List.filterMap_cons, hP]

/-- Every entry of the annotated listing keeps its starting ancestor list as
a prefix of its recorded ancestors. -/
theorem listAllWithAnc_anc_extends :
    ∀ t cur anc, ∀ e ∈ listAllWithAnc cur anc t, ∃ ext, e.2 = anc ++ ext := by
  apply FSTree.inductionOn
  intro ds fs ihsub cur anc e he
  rw [show listAllWithAnc cur anc (FSTree.node ds fs) =
      fs.map (fun f => (pyJoin cur f, anc)) ++ allChildrenWithAnc cur anc ds from rfl] at he
  rcases List.mem_append.mp he with h | h
  · rcases List.mem_map.mp h with ⟨f, -, hf⟩
    exact ⟨[], by rw [← hf, List.append_nil]⟩
  · clear he
    induction ds with
    | nil => cases h
    | cons q rest ihq =>
      obtain ⟨qn, qt⟩ := q
      rw [show allChildrenWithAnc cur anc ((qn, qt) :: rest) =
          listAllWithAnc (pyJoin cur qn) (anc ++ [pyJoin cur qn]) qt ++
            allChildrenWithAnc cur anc rest from rfl] at h
      rcases List.mem_append.mp h with h2 | h2
      · rcases ihsub (qn, qt) (List.mem_cons_self _ _) (pyJoin cur qn)
          (anc ++ [pyJoin cur qn]) e h2 with ⟨ext, hext⟩
        exact ⟨[pyJoin cur qn] ++ ext, by rw [hext, List.append_assoc]⟩
      · exact ihq (fun p hp => ihsub p (List.mem_cons_of_mem _ hp)) h2

theorem contains_filter (l : List String) (f : String → Bool) (x : String) (hx : x ∈ l) :
    (l.filter f).contains x = f x := by
  cases hf : f x with
  | true => exact List.elem_iff.mpr (List.mem_filter.mpr ⟨hx, hf⟩)
  | false =>
    cases hc : (l.filter f).contains x with
    | false => rfl
    | true =>
      have := (List.mem_filter.mp (List.elem_iff.mp hc)).2
      rw [hf] at this
      cases this

/-- The pruned walk equals the annotated full listing filtered by "the file
itself does not match with `is_dir=False` and no ancestor directory matches
with `is_dir=True`", assuming no rule raises.  Generalised over the current
directory and the (not-yet-matching) ancestors above it. -/
theorem walk_eq_filtered (ign : IgnoredFiles) (mypath : String)
    (hM : ∀ p d, ign.matchOpt p d ≠ none) :
    ∀ t cur anc, anc.all (fun a => !(isIgnoredB ign a true)) = true →
      listFilesWalk ign mypath cur t =
        some ((listAllWithAnc cur anc t).filterMap (keepEntry ign mypath)) := by
  apply FSTree.inductionOn
  intro ds fs ihsub cur anc hanc
  have hprune := remove_filter ign cur (ds.map Prod.fst) (fun b _ => hM _ _)
  have hkept := keptFiles_eq ign mypath cur fs (fun f _ => hM _ _)
  have hch : ∀ ds' : List (String × FSTree),
      (∀ p ∈ ds', (∀ cur2 anc2, anc2.all (fun a => !(isIgnoredB ign a true)) = true →
        listFilesWalk ign mypath cur2 p.2 =
          some ((listAllWithAnc cur2 anc2 p.2).filterMap (keepEntry ign mypath)))) →
      (∀ p ∈ ds', p.1 ∈ ds.map Prod.fst) →
      walkChildren ign mypath cur
          ((ds.map Prod.fst).filter (fun b => !(isIgnoredB ign (pyJoin cur b) true))) ds' =
        some ((allChildrenWithAnc cur anc ds').filterMap (keepEntry ign mypath)) := by
    intro ds'
    induction ds' with
    | nil => intro _ _; rfl
    | cons q rest ihq =>
      obtain ⟨qn, qt⟩ := q
      intro hsub hnames
      have hqn : qn ∈ ds.map Prod.fst := hnames (qn, qt) (List.mem_cons_self _ _)
      have hcont := contains_filter (ds.map Prod.fst)
        (fun b => !(isIgnoredB ign (pyJoin cur b) true)) qn hqn
      rw [show walkChildren ign mypath cur
            ((ds.map Prod.fst).filter (fun b => !(isIgnoredB ign (pyJoin cur b) true)))
            ((qn, qt) :: rest) =
          (if ((ds.map Prod.fst).filter
                (fun b => !(isIgnoredB ign (pyJoin cur b) true))).contains qn then
            match listFilesWalk ign mypath (pyJoin cur qn) qt with
            | none => none
            | some a =>
              match walkChildren ign mypath cur
                  ((ds.map Prod.fst).filter (fun b => !(isIgnoredB ign (pyJoin cur b) true)))
                  rest with
              | none => none
              | some b => some (a ++ b)
          else walkChildren ign mypath cur
            ((ds.map Prod.fst).filter (fun b => !(isIgnoredB ign (pyJoin cur b) true)))
            rest) from rfl]
      rw [hcont]
      rw [show allChildrenWithAnc cur anc ((qn, qt) :: rest) =
          listAllWithAnc (pyJoin cur qn) (anc ++ [pyJoin cur qn]) qt ++
            allChildrenWithAnc cur anc rest from rfl]
      rw [List.filterMap_append]
      cases hP : isIgnoredB ign (pyJoin cur qn) true with
      | false =>
        simp only [hP, Bool.not_false, if_true]
        have hanc2 : (anc ++ [pyJoin cur qn]).all
            (fun a => !(isIgnoredB ign a true)) = true := by
          rw [List.all_append]
          simp [hanc, hP]
        rw [hsub (qn, qt) (List.mem_cons_self _ _) (pyJoin cur qn)
          (anc ++ [pyJoin cur qn]) hanc2]
        rw [ihq (fun p hp => hsub p (List.mem_cons_of_mem _ hp))
          (fun p hp => hnames p (List.mem_cons_of_mem _ hp))]
      | true =>
        simp only [hP, Bool.not_true, Bool.false_eq_true, if_false]
        have hnil : (listAllWithAnc (pyJoin cur qn) (anc ++ [pyJoin cur qn]) qt).filterMap
            (keepEntry ign mypath) = [] := by
          rw [List.filterMap_eq_nil_iff]
          intro e he
          rcases listAllWithAnc_anc_extends qt (pyJoin cur qn) (anc ++ [pyJoin cur qn]) e he
            with ⟨ext, hext⟩
          have hall : (e.2.all fun a => !(isIgnoredB ign a true)) = false := by
            rw [hext, List.append_assoc, List.all_append]
            have hF : ((pyJoin cur qn :: ext).all fun a => !(isIgnoredB ign a true))
                = false := by
              simp [hP]
            simp [hF]
          simp [keepEntry, hall]
        rw [hnil, List.nil_append]
        exact ihq (fun p hp => hsub p (List.mem_cons_of_mem _ hp))
          (fun p hp => hnames p (List.mem_cons_of_mem _ hp))
  rw [show listFilesWalk ign mypath cur (FSTree.node ds fs) =
      (match (ign.remove_ignored_folders cur (ds.map Prod.fst)).map Prod.snd with
       | none => none
       | some pruned =>
         match keptFiles ign mypath cur fs with
         | none => none
         | some kept =>
           match walkChildren ign mypath cur pruned ds with
           | none => none
           | some rest => some (kept ++ rest)) from rfl]
  rw [hprune]
  simp only [Option.map_some']
  rw [hkept]
  rw [hch ds (fun p hp => ihsub p hp) (fun p hp => List.mem_map_of_mem Prod.fst hp)]
  rw [show listAllWithAnc cur anc (FSTree.node ds fs) =
      fs.map (fun f => (pyJoin cur f, anc)) ++ allChildrenWithAnc cur anc ds from rfl]
  rw [List.filterMap_append, List.filterMap_map]
  have hfun : (keepEntry ign mypath ∘ fun f => (pyJoin cur f, anc)) = fun f =>
      if isIgnoredB ign (pyJoin cur f) false then none
      else some (pyRemoveAll (pyJoin cur f) (mypath ++ "/")) := by
    funext f
    simp only [Function.comp_apply, keepEntry, hanc, Bool.and_true]
    cases hI : isIgnoredB ign (pyJoin cur f) false with
    | true => simp [hI]
    | false => simp [hI]
  rw [hfun]

/-- A valid rule whose literal is a nonempty string answers every query. -/
theorem matchOpt_total_exact (r : IgnorePattern) (hi : r.invalid = none)
    (e : String) (he : r.exact_match = some e) (hne : e ≠ "") :
    ∀ p d, ∃ b, r.matchOpt p d = some b := by
  intro p d
  unfold IgnorePattern.matchOpt
  rw [if_neg (by simp [hi])]
  by_cases hd : (r.applies_to_directories && !d) = true
  · rw [if_pos hd]
    exact ⟨false, rfl⟩
  · rw [if_neg hd, he]
    dsimp only
    rw [if_neg hne]
    exact ⟨_, rfl⟩

/-- A rule collection whose rules all answer makes `IgnoredFiles.match`
total. -/
theorem matchRules_total (rs : List IgnorePattern)
    (h : ∀ r ∈ rs, ∀ p d, ∃ b, r.matchOpt p d = some b) :
    ∀ p d, matchRules rs p d ≠ none := by
  intro p d
  induction rs with
  | nil => simp [matchRules]
  | cons r rest ih =>
    rcases h r (List.mem_cons_self _ _) p d with ⟨b, hb⟩
    unfold matchRules
    rw [hb]
    cases b
    · exact ih (fun r' hr' => h r' (List.mem_cons_of_mem _ hr'))
    · simp

/-- C1 counterexample.  The claim says pruning during the walk and post-hoc
filtering of a full recursive listing by `match(·, is_dir=False)` report the
same files: they do not.  With the single ignore line `temp` and a tree
containing `temp/x.log`, the pruned walk removes the directory `temp`
(basename match, `is_dir=True`) and reports nothing, while `temp/x.log`
itself does not match with `is_dir=False` and survives the post-hoc
filter. -/
theorem C1_pruning_posthoc_counterexample :
    listFilesWalk (IgnoredFiles.init "/r" ".contentignore" true (some ["temp"])) "/r" "/r"
      (FSTree.node [("temp", FSTree.node [] ["x.log"])] []) = some [] ∧
    posthocListing (IgnoredFiles.init "/r" ".contentignore" true (some ["temp"])) "/r"
      (FSTree.node [("temp", FSTree.node [] ["x.log"])] []) = some ["temp/x.log"] := by
  decide

/-- C1 (amended).  For every directory tree and every ignore set whose rules
all answer (no rule trips the `match` asserts), the pruned walk of
`list_files` reports exactly the files of the full recursive listing that
neither match with `is_dir=False` themselves nor lie below an ancestor
directory matching with `is_dir=True`; the plain post-hoc filter of the
claim coincides with this only when the ancestor condition is added. -/
theorem C1_pruned_walk_eq_ancestor_filtered_listing (ign : IgnoredFiles)
    (mypath : String) (t : FSTree)
    (hM : ∀ p d, ign.matchOpt p d ≠ none) :
    listFilesWalk ign mypath mypath t =
      some ((listAllWithAnc mypath [] t).filterMap (keepEntry ign mypath)) :=
  walk_eq_filtered ign mypath hM t mypath [] rfl

/-- Witness for C1 at a concrete ignore set (lines `build`, plus the
built-in `.git/`) and tree: pruning removes `build/o.bin` together with its
directory, everything else is reported in walk order. -/
theorem C1_pruned_walk_eq_ancestor_filtered_listing_witness :
    listFilesWalk (IgnoredFiles.init "/r" ".contentignore" true (some ["build"])) "/r" "/r"
        (FSTree.node [("build", FSTree.node [] ["o.bin"]), ("src", FSTree.node [] ["a.py"])]
          ["top.txt"]) =
      some ["top.txt", "src/a.py"] := by
  have hM : ∀ p d, (IgnoredFiles.init "/r" ".contentignore" true
      (some ["build"])).matchOpt p d ≠ none := by
    intro p d
    unfold IgnoredFiles.matchOpt
    apply matchRules_total
    intro r hr
    rw [show (IgnoredFiles.init "/r" ".contentignore" true (some ["build"]))._regexes =
        [IgnorePattern.compile "/r" "build" ".contentignore" 1,
         IgnorePattern.compile "/r" ".git/" ".contentignore" 0] from by decide] at hr
    rcases List.mem_cons.mp hr with h | h
    · subst h
      exact matchOpt_total_exact _ (by decide) "build" (by decide) (by decide)
    · rcases List.mem_cons.mp h with h2 | h2
      · subst h2
        exact matchOpt_total_exact _ (by decide) ".git" (by decide) (by decide)
      · cases h2
  exact (C1_pruned_walk_eq_ancestor_filtered_listing
    (IgnoredFiles.init "/r" ".contentignore" true (some ["build"])) "/r"
    (FSTree.node [("build", FSTree.node [] ["o.bin"]), ("src", FSTree.node [] ["a.py"])]
      ["top.txt"]) hM).trans (by decide)

/-- C3 (amended).  For a pattern `**/<suffix>` whose suffix contains a `/`,
no wildcard, and no trailing `/`, the compiled rule matches a candidate
path (for any `is_dir` value: the rule is not directory-only) exactly when
the path relative to the root *contains* `"/" ++ suffix` at some position
preceded only by non-newline characters — not merely when it ends with it,
because `re.match` anchors only at the start. -/
theorem C3_leading_doublestar_slash_suffix (root suffix bn : String) (k : Nat)
    (fp : String) (d : Bool)
    (hs : strContains suffix "/" = true) (hg : hasGlob suffix = false)
    (he : pyEndsWith suffix "/" = false) :
    ((IgnorePattern.compile root ("**/" ++ suffix) bn k).matchOpt fp d = some true ↔
      hasInteriorSlashSub (relName root fp) suffix) := by
  rw [compile_leading_doublestar_slash root suffix bn k hs hg he]
  unfold IgnorePattern.matchOpt
  rw [if_neg (by simp), if_neg (by simp)]
  dsimp only [regexMatch]
  simp only [Option.some.injEq]
  rw [show ((if false = true then pyBasename fp else relName root fp)) = relName root fp
    from by simp]
  exact scanSlash_iff suffix.data (relName root fp).data

/-- Witness for C3: the rule from `**/a/b` matches `r/x/a/bz` (relative path
`x/a/bz`, which contains `/a/b` in its interior). -/
theorem C3_leading_doublestar_slash_suffix_witness :
    strContains "a/b" "/" = true ∧ hasGlob "a/b" = false ∧ pyEndsWith "a/b" "/" = false ∧
    (IgnorePattern.compile "r" ("**/" ++ "a/b") ".contentignore" 1).matchOpt "r/x/a/bz" false
      = some true :=
  ⟨by decide, by decide, by decide,
   (C3_leading_doublestar_slash_suffix "r" "a/b" ".contentignore" 1 "r/x/a/bz" false
      (by decide) (by decide) (by decide)).mpr ⟨['x'], ['z'], by decide, by decide⟩⟩

/-- C5.  Every pattern ending in `/` but not in `*/` compiles to a rule with
`applies_to_directories` set; queried with `is_dir=False` such a rule
returns `False` whenever it is valid, and in no case does it return
`True` — it never matches a file. -/
theorem C5_trailing_slash_never_matches_file (root p bn : String) (k : Nat) (fp : String)
    (h1 : pyEndsWith p "/" = true) (h2 : pyEndsWith p "*/" = false) :
    (IgnorePattern.compile root p bn k).applies_to_directories = true ∧
    ((IgnorePattern.compile root p bn k).invalid = none →
      (IgnorePattern.compile root p bn k).matchOpt fp false = some false) ∧
    (IgnorePattern.compile root p bn k).matchOpt fp false ≠ some true := by
  have ha := compile_applies_of_d0 root p bn k h1 h2
  exact ⟨ha, fun hi => matchOpt_false_of_dir_only _ fp ha hi,
    matchOpt_ne_true_of_dir_only _ fp ha⟩

/-- Witness for C5 at the pattern `build/` and the file `/r/build/out.bin`. -/
theorem C5_trailing_slash_never_matches_file_witness :
    pyEndsWith "build/" "/" = true ∧ pyEndsWith "build/" "*/" = false ∧
    (IgnorePattern.compile "/r" "build/" ".contentignore" 1).applies_to_directories = true ∧
    (IgnorePattern.compile "/r" "build/" ".contentignore" 1).matchOpt "/r/build/out.bin"
      false = some false :=
  ⟨by decide, by decide,
   (C5_trailing_slash_never_matches_file "/r" "build/" ".contentignore" 1 "/r/build/out.bin"
      (by decide) (by decide)).1,
   (C5_trailing_slash_never_matches_file "/r" "build/" ".contentignore" 1 "/r/build/out.bin"
      (by decide) (by decide)).2.1 (by decide)⟩

/-- C6.  Compilation is embedded as a *total* function — mirroring that
`IgnorePattern.__init__` always returns a rule object, valid or marked
invalid, and never raises (each `re.compile` it performs receives escaped
text or `fnmatch.translate` output, which the current CPython `re` always
accepts) — and every rule it returns without `invalid` carries a literal
or a compiled regex, so the caller can keep processing subsequent lines. -/
theorem C6_compile_total_valid_or_invalid (root p bn : String) (k : Nat) :
    (IgnorePattern.compile root p bn k).invalid = none →
      (IgnorePattern.compile root p bn k).exact_match ≠ none ∨
        (IgnorePattern.compile root p bn k).regex ≠ none :=
  compile_matcher root p bn k

/-- Witness for C6 at the pattern `foo`. -/
theorem C6_compile_total_valid_or_invalid_witness :
    (IgnorePattern.compile "/r" "foo" ".contentignore" 1).invalid = none ∧
    ((IgnorePattern.compile "/r" "foo" ".contentignore" 1).exact_match ≠ none ∨
      (IgnorePattern.compile "/r" "foo" ".contentignore" 1).regex ≠ none) :=
  ⟨by decide, C6_compile_total_valid_or_invalid "/r" "foo" ".contentignore" 1 (by decide)⟩

/-- C8.  Every ignore-file line is stripped before classification: a line of
only whitespace is skipped exactly like a blank line, stripping
whitespace-wrapped text recovers the trimmed pattern, and a pattern
surrounded by whitespace is processed identically to the trimmed pattern
(in particular it compiles to the same rule). -/
theorem C8_lines_stripped_before_classification (self : IgnoredFiles) (ln : Nat)
    (line ws1 ws2 core : String)
    (hws : ∀ c ∈ line.data, isPySpace c = true)
    (h1 : ∀ c ∈ ws1.data, isPySpace c = true)
    (h2 : ∀ c ∈ ws2.data, isPySpace c = true)
    (hh : ∀ c, core.data.head? = some c → isPySpace c = false)
    (hl : ∀ c, core.data.getLast? = some c → isPySpace c = false) :
    self.parseLine ln line = self ∧
    pyStrip (ws1 ++ core ++ ws2) = core ∧
    self.parseLine ln (ws1 ++ core ++ ws2) = self.parseLine ln core := by
  have hstrip0 : pyStrip line = "" := by
    unfold pyStrip
    have hd : line.data.dropWhile isPySpace = [] :=
      List.dropWhile_eq_nil_iff.mpr (fun c hc => by simp [hws c hc])
    rw [hd]
    rfl
  have hstrip : pyStrip (ws1 ++ core ++ ws2) = core := by
    apply string_eq_of_data
    unfold pyStrip
    show (((ws1 ++ core ++ ws2).data.dropWhile isPySpace).reverse.dropWhile
      isPySpace).reverse = core.data
    rw [String.data_append, String.data_append, List.append_assoc]
    exact stripData_concat ws1.data ws2.data core.data h1 h2 hh hl
  have hcore : pyStrip core = core := by
    apply string_eq_of_data
    unfold pyStrip
    have := stripData_concat [] [] core.data (by simp) (by simp) hh hl
    simpa using this
  refine ⟨?_, hstrip, ?_⟩
  · unfold IgnoredFiles.parseLine
    rw [hstrip0]
    simp
  · unfold IgnoredFiles.parseLine
    rw [hstrip, hcore]

/-- Witness for C8: the whitespace-only line `" \t "` is skipped, and
`" foo  "` is processed exactly like `foo`. -/
theorem C8_lines_stripped_before_classification_witness :
    (IgnoredFiles.init "/r" ".contentignore" false none).parseLine 2 " \t " =
      IgnoredFiles.init "/r" ".contentignore" false none ∧
    pyStrip (" " ++ "foo" ++ "  ") = "foo" ∧
    (IgnoredFiles.init "/r" ".contentignore" false none).parseLine 2 (" " ++ "foo" ++ "  ") =
      (IgnoredFiles.init "/r" ".contentignore" false none).parseLine 2 "foo" :=
  C8_lines_stripped_before_classification (IgnoredFiles.init "/r" ".contentignore" false none)
    2 " \t " " " "  " "foo" (by decide) (by decide) (by decide)
    (by intro c hc; cases hc; decide) (by intro c hc; simp at hc; subst hc; decide)

/-- C9.  On a rule set whose `match` answers for every queried child (no
assert fires), `remove_ignored_folders` removes exactly the names matching
as directories, keeps the remaining names in their original relative order,
adds nothing, and leaves the `IgnoredFiles` object — its rule set and its
diagnostics — unchanged. -/
theorem C9_remove_ignored_folders_filters (self : IgnoredFiles) (root : String)
    (dirs : List String)
    (hM : ∀ b ∈ dirs, self.matchOpt (pyJoin root b) true ≠ none) :
    self.remove_ignored_folders root dirs =
      some (self, dirs.filter (fun b => !(isIgnoredB self (pyJoin root b) true))) :=
  remove_filter self root dirs hM

/-- Witness for C9: with the ignore line `build`, the children
`["build", "src"]` are pruned to `["src"]` and the rule object is
returned unchanged. -/
theorem C9_remove_ignored_folders_filters_witness :
    (∀ b ∈ (["build", "src"] : List String),
      (IgnoredFiles.init "/r" ".contentignore" true (some ["build"])).matchOpt (pyJoin "/r" b)
        true ≠ none) ∧
    (IgnoredFiles.init "/r" ".contentignore" true (some ["build"])).remove_ignored_folders
        "/r" ["build", "src"] =
      some (IgnoredFiles.init "/r" ".contentignore" true (some ["build"]), ["src"]) :=
  ⟨by decide,
   (C9_remove_ignored_folders_filters (IgnoredFiles.init "/r" ".contentignore" true
      (some ["build"])) "/r" ["build", "src"] (by decide)).trans (by decide)⟩

/-- C10.  A pattern `<name>/**` with `<name>` a nonempty wildcard-free,
slash-free segment compiles to a valid, directory-only, basename-exact rule
whose literal is `<name>`: it never matches anything queried as a file, and
it matches a directory at any depth exactly when the directory's basename
equals `<name>` — so files below such a directory are excluded only through
pruning. -/
theorem C10_name_doublestar_basename_rule (root name bn : String) (k : Nat)
    (h1 : hasGlob name = false) (h2 : strContains name "/" = false) (h3 : name ≠ "") :
    (IgnorePattern.compile root (name ++ "/**") bn k).invalid = none ∧
    (IgnorePattern.compile root (name ++ "/**") bn k).applies_to_directories = true ∧
    (IgnorePattern.compile root (name ++ "/**") bn k).match_basename = true ∧
    (IgnorePattern.compile root (name ++ "/**") bn k).exact_match = some name ∧
    (∀ fp, (IgnorePattern.compile root (name ++ "/**") bn k).matchOpt fp false
      = some false) ∧
    (∀ fp, (IgnorePattern.compile root (name ++ "/**") bn k).matchOpt fp true
      = some (pyBasename fp == name)) := by
  rw [compile_name_doublestar root name bn k h1 h2 h3]
  refine ⟨rfl, rfl, rfl, rfl, fun fp => rfl, fun fp => ?_⟩
  unfold IgnorePattern.matchOpt
  rw [if_neg (by simp), if_neg (by simp)]
  dsimp only
  rw [if_neg h3, if_pos rfl]

/-- Witness for C10 at the pattern `a/**`: the directory `/r/b/a` (basename
`a`, at depth two) matches, computed through the theorem's basename
equation. -/
theorem C10_name_doublestar_basename_rule_witness :
    hasGlob "a" = false ∧ strContains "a" "/" = false ∧ ("a" : String) ≠ "" ∧
    (IgnorePattern.compile "/r" ("a" ++ "/**") ".contentignore" 1).matchOpt "/r/b/a" true
      = some (pyBasename "/r/b/a" == "a") :=
  ⟨by decide, by decide, by decide,
   (C10_name_doublestar_basename_rule "/r" "a" ".contentignore" 1 (by decide) (by decide)
      (by decide)).2.2.2.2.2 "/r/b/a"⟩
